import Mathlib

/-!
# A verification development for the LibHelix editing core

This file embeds, in Lean, the data model and the operations of the LibHelix
binary-file editor core (`Helix.hpp`, `File.cpp`, `FileHelper.hpp`) and proves
or refutes the specified properties about them.

Conventions of the embedding:
* C++ `size_t` positions and amounts become `Nat`; `ptrdiff_t` becomes `Int`.
* A byte value is a `Nat` (only its identity matters to the algorithms here).
* `std::optional` becomes `Option`; a C++ operation that can throw becomes
  `Except`.
* On-disk file contents are modelled as a function `Nat → Nat` together with an
  explicit size, or as a `List Nat`, depending on what the operation needs.
-/

namespace LibHelix

/-- The result of `Action::reversePosition`: either a byte value stored in the
action itself, or a translated natural position (`std::variant<std::byte, Natural>`). -/
inductive RevResult where
  | byte (value : Nat)
  | pos (position : Nat)
deriving DecidableEq, Repr

/-- The `Action` hierarchy of `Helix.hpp`: `EditAction`, `InsertionAction`,
`DeletionAction` and `BundledAction` (which owns a list of child actions). -/
inductive Action where
  | edit (position : Nat) (data : List Nat)
  | insertion (position : Nat) (amount : Nat)
  | deletion (position : Nat) (amount : Nat)
  | bundled (children : List Action)
deriving Repr

mutual

/-- `Action::reversePosition` of each concrete action class.
`EditAction`: empty data passes the position through; a position inside
`[position, position + data.size())` answers with `data[read_position - position]`.
`InsertionAction`: a position inside `[position, position + amount)` answers with
the insertion value `0x00`; otherwise a position `>= position` is shifted down by
`amount`. `DeletionAction`: a position `>= position` is shifted up by `amount`.
`BundledAction`: children are consulted in reverse order, threading the position. -/
def Action.reversePosition : Action → Nat → RevResult
  | .edit p data, r =>
      if data.length = 0 then .pos r
      else if p ≤ r ∧ r < p + data.length then .byte (data.getD (r - p) 0)
      else .pos r
  | .insertion p n, r =>
      if p ≤ r ∧ r < p + n then .byte 0
      else if p ≤ r then .pos (r - n)
      else .pos r
  | .deletion p n, r =>
      if p ≤ r then .pos (r + n)
      else .pos r
  | .bundled kids, r => reverseThread kids r

/-- Reverse-order threading of a position through a list of actions, as done by
`BundledAction::reversePosition` and `ActionList::readFromStorage`: the *last*
action of the list is consulted first; the first `byte` answer short-circuits. -/
def reverseThread : List Action → Nat → RevResult
  | [], r => .pos r
  | a :: rest, r =>
      match reverseThread rest r with
      | .byte b => .byte b
      | .pos r2 => Action.reversePosition a r2

end

mutual

/-- `Action::getSizeDifference` as implemented: `EditAction` 0, `InsertionAction`
`+amount`, `DeletionAction` `+amount` (the source casts the unsigned amount
directly), `BundledAction` has no override so the base class returns 0. -/
def Action.getSizeDifference : Action → Int
  | .edit _ _ => 0
  | .insertion _ n => (n : Int)
  | .deletion _ n => (n : Int)
  | .bundled _ => 0

end

mutual

/-- Modelled from the spec's words (for comparison with
`Action.getSizeDifference`): size_delta is 0 for Edit, `+n` for Insertion,
`-n` for Deletion, and the sum of the children's deltas for Bundled. -/
def sizeDeltaSpec : Action → Int
  | .edit _ _ => 0
  | .insertion _ n => (n : Int)
  | .deletion _ n => -(n : Int)
  | .bundled kids => sizeDeltaSpecList kids

/-- Sum of the spec-side size deltas of a list of actions. -/
def sizeDeltaSpecList : List Action → Int
  | [] => 0
  | a :: rest => sizeDeltaSpec a + sizeDeltaSpecList rest

end

/-- One call made against the raw file (`FileHelper::File`) while an action
saves itself: a positioned write, a shift-insertion, or a shift-deletion. -/
inductive FileOp where
  | write (pos : Nat) (data : List Nat)
  | insertOp (pos : Nat) (amount : Nat) (chunk : Nat)
  | deleteOp (pos : Nat) (amount : Nat) (chunk : Nat)
deriving DecidableEq, Repr

mutual

/-- The trace of raw-file calls of `Action::save`. `EditAction::save` writes
`data` at `position`. `InsertionAction::save` calls `file.insertion` with the
literal position `5` and chunk size 120, as written in the source; likewise
`DeletionAction::save` calls `file.deletion` at the literal position `5`.
`BundledAction::save` saves its children in order. -/
def Action.saveTrace : Action → List FileOp
  | .edit p data => [.write p data]
  | .insertion _ n => [.insertOp 5 n 120]
  | .deletion _ n => [.deleteOp 5 n 120]
  | .bundled kids => saveTraceList kids

/-- Concatenated save traces of a list of actions, in order. -/
def saveTraceList : List Action → List FileOp
  | [] => []
  | a :: rest => Action.saveTrace a ++ saveTraceList rest

end

/-- The `UndoStatus` enumeration of `Helix.hpp`. -/
inductive UndoStatus where
  | success
  | unknownFailure
  | nothing
  | unnable
  | invalidState
deriving DecidableEq, Repr

/-- The `RedoStatus` enumeration of `Helix.hpp`. -/
inductive RedoStatus where
  | success
  | unknownFailure
  | nothing
  | unnable
  | invalidState
deriving DecidableEq, Repr

mutual

/-- `Action::canUndo`: the base class returns true for the three primitive
actions; `BundledAction::canUndo` is false iff some child cannot be undone. -/
def Action.canUndo : Action → Bool
  | .edit _ _ => true
  | .insertion _ _ => true
  | .deletion _ _ => true
  | .bundled kids => canUndoList kids

/-- Conjunction of `canUndo` over a list of child actions. -/
def canUndoList : List Action → Bool
  | [] => true
  | a :: rest => a.canUndo && canUndoList rest

end

mutual

/-- `Action::canRedo`, mirroring `canUndo`. -/
def Action.canRedo : Action → Bool
  | .edit _ _ => true
  | .insertion _ _ => true
  | .deletion _ _ => true
  | .bundled kids => canRedoList kids

/-- Conjunction of `canRedo` over a list of child actions. -/
def canRedoList : List Action → Bool
  | [] => true
  | a :: rest => a.canRedo && canRedoList rest

end

/-- The status returned by `Action::undo`: the primitive actions store data only
and report success; `BundledAction::undo` reports `Unnable` when a child cannot
be undone and otherwise undoes the children (which changes no stored data). -/
def Action.undoStatus : Action → UndoStatus
  | .edit _ _ => .success
  | .insertion _ _ => .success
  | .deletion _ _ => .success
  | .bundled kids => if canUndoList kids then .success else .unnable

/-- The status returned by `Action::redo`, mirroring `undoStatus`. -/
def Action.redoStatus : Action → RedoStatus
  | .edit _ _ => .success
  | .insertion _ _ => .success
  | .deletion _ _ => .success
  | .bundled kids => if canRedoList kids then .success else .unnable

/-- `ActionList`: the ordered list of actions and the cursor `index`; actions
before `index` are applied, the rest are unapplied. -/
structure ActionList where
  actions : List Action
  index : Nat

/-- `ActionList::hasAppliedEntries`. -/
def ActionList.hasAppliedEntries (al : ActionList) : Bool :=
  decide (0 < al.index)

/-- `ActionList::hasUnappliedEntries`. -/
def ActionList.hasUnappliedEntries (al : ActionList) : Bool :=
  decide (al.index < al.actions.length)

/-- `ActionList::canUndo`: with applied entries, ask the action at `index - 1`. -/
def ActionList.canUndo (al : ActionList) : Bool :=
  if 0 < al.index then (al.actions.getD (al.index - 1) (.bundled [])).canUndo
  else false

/-- `ActionList::undo`: nothing to undo when the cursor is at 0; `Unnable` when
the last applied action cannot be undone; otherwise decrement the cursor first
and invoke the action's undo (which changes no stored data). -/
def ActionList.undo (al : ActionList) : ActionList × UndoStatus :=
  if ¬ 0 < al.index then (al, .nothing)
  else if ¬ al.canUndo then (al, .unnable)
  else
    let i := al.index - 1
    ({ al with index := i }, (al.actions.getD i (.bundled [])).undoStatus)

/-- `ActionList::clearUnappliedActions`: drop the actions from `index` on. -/
def ActionList.clearUnappliedActions (al : ActionList) : ActionList :=
  { al with actions := al.actions.take al.index }

/-- `ActionList::doAction`: clear the unapplied tail, append the new action,
increment the cursor, then invoke redo on the newly applied action. -/
def ActionList.doAction (al : ActionList) (a : Action) : ActionList × RedoStatus :=
  let al1 := al.clearUnappliedActions
  let al2 : ActionList := ⟨al1.actions ++ [a], al1.index + 1⟩
  (al2, (al2.actions.getD (al2.index - 1) (.bundled [])).redoStatus)

/-- `ActionList::readFromStorage`: thread the position through *all* actions in
reverse order (newest first), short-circuiting on the first byte answer. -/
def ActionList.readFromStorage (al : ActionList) (position : Nat) : RevResult :=
  reverseThread al.actions position

/-- `Helix::read(position)`: consult the action log first; a byte answer is
returned directly, a translated position falls through to the raw single-byte
read (abstracted here as a function from positions to optional bytes). -/
def Helix.read (al : ActionList) (raw : Nat → Option Nat) (position : Nat) :
    Option Nat :=
  match al.readFromStorage position with
  | .byte b => some b
  | .pos p => raw p

/-- Claim C1. `InsertionAction{p, n}.reversePosition(r)` returns the byte 0x00 when
`p ≤ r < p + n`, the position `r - n` when `r ≥ p + n`, and `r` unchanged
otherwise; `DeletionAction{p, n}.reversePosition(r)` returns `r + n` when
`r ≥ p` and `r` unchanged otherwise. -/
theorem C1_reverse_position (p n r : Nat) :
    Action.reversePosition (.insertion p n) r =
      (if p ≤ r ∧ r < p + n then .byte 0
       else if p + n ≤ r then .pos (r - n)
       else .pos r) ∧
    Action.reversePosition (.deletion p n) r =
      (if p ≤ r then .pos (r + n) else .pos r) := by
  constructor
  · show (if p ≤ r ∧ r < p + n then RevResult.byte 0
       else if p ≤ r then .pos (r - n) else .pos r) = _
    by_cases h1 : p ≤ r ∧ r < p + n
    · simp [h1]
    · by_cases h2 : p ≤ r
      · have h3 : p + n ≤ r := by omega
        simp [h1, h2, h3]
      · have h3 : ¬ p + n ≤ r := by omega
        simp [h1, h2, h3]
  · rfl

/-- Claim C3 is violated by the code: `getSizeDifference` returns `+amount` for a
`DeletionAction` where the claim demands `-n`, and `BundledAction` inherits the
base-class result 0 where the claim demands the sum of the children's deltas.
Evaluation at `Deletion{0, 4}` and `Bundled{[Insertion{0, 3}]}` exhibits both
divergences against the spec-side `sizeDeltaSpec`; the Edit and Insertion cases
do agree with the claim. -/
theorem C3_size_delta_code_bug :
    Action.getSizeDifference (.deletion 0 4) = 4 ∧
    sizeDeltaSpec (.deletion 0 4) = -4 ∧
    Action.getSizeDifference (.bundled [.insertion 0 3]) = 0 ∧
    sizeDeltaSpec (.bundled [.insertion 0 3]) = 3 ∧
    Action.getSizeDifference (.edit 2 [9, 9]) = 0 ∧
    Action.getSizeDifference (.insertion 1 5) = 5 :=
  ⟨rfl, rfl, rfl, rfl, rfl, rfl⟩

/-- Claim C4 is violated by the code: `InsertionAction::save` and
`DeletionAction::save` invoke the raw file's shift-insert and shift-delete at
the literal position 5, not at the action's stored position. Evaluating the
save trace of `Insertion{2, 3}` and `Deletion{7, 2}` shows the hard-coded
position. -/
theorem C4_materialize_position_code_bug :
    Action.saveTrace (.insertion 2 3) = [.insertOp 5 3 120] ∧
    Action.saveTrace (.deletion 7 2) = [.deleteOp 5 2 120] ∧
    (5 : Nat) ≠ 2 ∧ (5 : Nat) ≠ 7 :=
  ⟨rfl, rfl, by decide, by decide⟩

/-- The base file for the claim-C2 scenario: its byte at position 0 is 0x41. -/
def c2Raw : Nat → Option Nat := fun p => if p = 0 then some 65 else none

/-- The empty action log, before any `doAction`. -/
def c2Before : ActionList := ⟨[], 0⟩

/-- The log after `doAction(Edit{0, [0x5A]})` followed by `undo()`: the cursor
is back at 0 but the edit remains in the list. -/
def c2After : ActionList := ((c2Before.doAction (.edit 0 [90])).1.undo).1

/-- Claim C2 is violated by the code: `readFromStorage` walks all actions, not
only the applied ones, so after `do(Edit{0, [0x5A]}); undo()` a read at 0 still
returns the undone edit's byte 0x5A instead of the base file's byte 0x41 that
`read(0)` returned before the `do`. -/
theorem C2_read_after_undo_code_bug :
    Helix.read c2After c2Raw 0 = some 90 ∧
    Helix.read c2Before c2Raw 0 = some 65 ∧
    Helix.read c2After c2Raw 0 ≠ Helix.read c2Before c2Raw 0 :=
  ⟨rfl, rfl, by decide⟩

/-- `Constraint::convert` of `File.cpp`: start from the natural position, add
`start` when present, and when `end` is present throw `PositionRangeError`
(modelled as `.error ()`) whenever the translated position is not below it. -/
def Constraint.convert (start stop : Option Nat) (pos : Nat) : Except Unit Nat :=
  let translated := pos + (match start with | some s => s | none => 0)
  match stop with
  | some e => if e ≤ translated then .error () else .ok translated
  | none => .ok translated

/-- Claim C8. For a constrained view with `start = S` and `end = E`,
natural-to-absolute conversion returns `S + N` iff `S + N < E` and raises
`PositionRangeError` otherwise; an absent `start` is treated as 0 and an absent
`end` performs no upper check. -/
theorem C8_natural_to_absolute (S E N : Nat) (stop : Option Nat) :
    Constraint.convert (some S) (some E) N =
      (if S + N < E then .ok (S + N) else .error ()) ∧
    (Constraint.convert (some S) (some E) N = .ok (S + N) ↔ S + N < E) ∧
    Constraint.convert none stop N = Constraint.convert (some 0) stop N ∧
    Constraint.convert (some S) none N = .ok (S + N) := by
  have hcomm : N + S = S + N := Nat.add_comm N S
  refine ⟨?_, ?_, ?_, ?_⟩
  · show (if E ≤ N + S then Except.error () else .ok (N + S)) = _
    rw [hcomm]
    by_cases h : S + N < E
    · rw [if_neg (by omega), if_pos h]
    · rw [if_pos (by omega), if_neg h]
  · show (if E ≤ N + S then Except.error () else .ok (N + S)) = _ ↔ _
    rw [hcomm]
    by_cases h : S + N < E
    · rw [if_neg (by omega)]
      simp [h]
    · rw [if_pos (by omega)]
      simp [h]
  · show Constraint.convert none stop N = Constraint.convert (some 0) stop N
    unfold Constraint.convert
    rfl
  · show Except.ok (N + S) = .ok (S + N)
    rw [hcomm]

/-- A `std::vector<std::byte>` modelled with its size and its raw storage kept
separate: `reserve` allocates storage without changing the size, and writing
through the `data()` pointer fills the storage without changing the size. -/
structure ByteVec where
  storage : List Nat
  len : Nat
deriving DecidableEq, Repr

/-- The raw positioned read `FileHelper::File::read(absolute_position, amount,
into)`: seek to the position and read up to `amount` bytes; at end-of-file
fewer bytes come back (`gcount`). The file contents are a byte list. -/
def FileHelper.readRaw (contents : List Nat) (pos amount : Nat) : List Nat :=
  (contents.drop pos).take amount

/-- The vector-returning overload `FileHelper::File::read(absolute_position,
amount)`: construct an empty vector, reserve `amount` slots, read into the
vector's raw storage through `data()`, and return the vector — whose size was
never set after construction. -/
def FileHelper.readVec (contents : List Nat) (pos amount : Nat) : ByteVec :=
  let bytes : ByteVec := ⟨[], 0⟩
  let readBytes := FileHelper.readRaw contents pos amount
  { bytes with storage := readBytes }

/-- Claim C9. The vector-returning raw-file read overload always returns a
vector whose size is zero, regardless of how many bytes were actually read into
its storage. -/
theorem C9_read_vector_size_zero (contents : List Nat) (pos amount : Nat) :
    (FileHelper.readVec contents pos amount).len = 0 ∧
    (FileHelper.readVec contents pos amount).storage =
      FileHelper.readRaw contents pos amount :=
  ⟨rfl, rfl⟩

/-- A cached block of `Helix`: an aligned start position and its owned bytes. -/
structure Block where
  start : Nat
  data : List Nat
deriving DecidableEq, Repr

/-- `util::getRoundedPosition`: round a position down to a multiple of the
block size. -/
def getRoundedPosition (value roundTo : Nat) : Nat :=
  value - value % roundTo

/-- `util::find_one` as used by `Helix::findBlock`: the index of the first
cached block whose start position equals the rounded position. -/
def findBlock (blocks : List Block) (rounded : Nat) : Option Nat :=
  blocks.findIdx? (fun b => b.start == rounded)

/-- `Helix::createBlock`: read one block's worth of bytes at the rounded
position (through a whole-file constrained view, whose position translation is
the identity); an empty read means no block is created and `none` is returned;
otherwise the new block is appended and its index returned. -/
def Helix.createBlock (contents : List Nat) (blockSize : Nat)
    (blocks : List Block) (rounded : Nat) : Option (List Block × Nat) :=
  let bytes := FileHelper.readRaw contents rounded blockSize
  if bytes.length = 0 then none
  else some (blocks ++ [⟨rounded, bytes⟩], blocks.length)

/-- `Helix::readSingleRaw`: find or create the block containing the position;
when the block cannot be created, return `none`; otherwise index the block's
data at `pos - rounded` with `std::vector::at`, which throws `std::out_of_range`
(modelled as `.error ()`) when that offset is at or past the block's actual
data length. -/
def Helix.readSingleRaw (contents : List Nat) (blockSize : Nat)
    (blocks : List Block) (pos : Nat) : Except Unit (Option Nat) :=
  let rounded := getRoundedPosition pos blockSize
  let found : Option (List Block × Nat) :=
    match findBlock blocks rounded with
    | some i => some (blocks, i)
    | none => Helix.createBlock contents blockSize blocks rounded
  match found with
  | none => .ok none
  | some (blocks2, i) =>
      let b := blocks2.getD i ⟨0, []⟩
      let blockPos := pos - rounded
      if blockPos < b.data.length then .ok (some (b.data.getD blockPos 0))
      else .error ()

/-- Claim C7 is violated by the code: on a 6-byte file with block size 4, a
read at position 7 successfully creates the final block (start 4, actual
length 2), and the offset 3 within it is past the block's data length — but the
code then indexes the data with `std::vector::at`, which throws
`std::out_of_range` instead of returning `none` as the claim states. -/
theorem C7_read_past_block_end_code_bug :
    Helix.readSingleRaw [10, 11, 12, 13, 14, 15] 4 [] 7 = .error () ∧
    Helix.readSingleRaw [10, 11, 12, 13, 14, 15] 4 [] 7 ≠ .ok none :=
  ⟨rfl, fun h => Except.noConfusion h⟩

/-- The shift schedule of `FileHelper::File::insertionNoOverwrite` on a file of
current size `S`: one triple per loop iteration, holding the slice start, the
slice length, and the destination `slice_start + amount`. The tail slice is
processed first (iteration 0); the source gives it length `S % chunk` — or
`chunk` when that remainder is zero — and gives every later slice length
exactly `chunk`, with slice `i` starting at `S - first_slice_amount - i*chunk`. -/
def insertShiftChunks (S pos amount chunk : Nat) : List (Nat × Nat × Nat) :=
  let shiftAmount := S - pos
  let shiftIterations :=
    shiftAmount / chunk + (if shiftAmount % chunk = 0 then 0 else 1)
  let firstSliceAmount := if S % chunk = 0 then chunk else S % chunk
  (List.range shiftIterations).map (fun i =>
    let sliceStart := S - firstSliceAmount - i * chunk
    let sliceAmount := if i = 0 then firstSliceAmount else chunk
    (sliceStart, sliceAmount, sliceStart + amount))

/-- Claim C5 is violated by the code: on a file of size `S = 10` with
`pos = 3`, `chunk = 4` (and insertion amount 1), the code's schedule is
`[(8, 2, 9), (4, 4, 5)]`. Its tail chunk has length `S % chunk = 2` where the
claim demands `(S - pos) % chunk = 3`, and no scheduled slice contains
position 3, so the moved slices cover `[4, 10)` and not `[pos, S) = [3, 10)`:
the byte at position 3 is never moved. -/
theorem C5_insert_chunking_code_bug :
    insertShiftChunks 10 3 1 4 = [(8, 2, 9), (4, 4, 5)] ∧
    (10 - 3) % 4 = 3 ∧
    ((insertShiftChunks 10 3 1 4).all
      fun c => decide ¬(c.1 ≤ 3 ∧ 3 < c.1 + c.2.1)) = true := by
  refine ⟨rfl, rfl, ?_⟩
  decide

/-- The error surface of `Helix::insert`: the mode check throws a runtime
error, and `pattern.at(i % pattern.size())` is a division by zero followed by
an out-of-range access when the pattern is empty and the loop runs. -/
inductive InsertError where
  | modeError
  | atOutOfRange
deriving DecidableEq, Repr

/-- The data-building loop of `Helix::insert(position, amount, pattern)`: after
`n` iterations the vector holds, for each `i < n`, the byte
`pattern.at(i % pattern.size())` appended in order; the empty-pattern access
(`i % 0` and the out-of-range `.at`) is modelled as failure. -/
def buildTiled (pattern : List Nat) : Nat → Option (List Nat)
  | 0 => some []
  | n + 1 =>
      match buildTiled pattern n, pattern.get? (n % pattern.length) with
      | some d, some b => some (d ++ [b])
      | _, _ => none

/-- The vector-pattern overload `Helix::insert(position, amount, pattern)`:
check the mode, build the tiled data, and push a Bundled action made of the
`Insertion{position, amount}` followed by the `Edit{position, data}`. -/
def Helix.insertPattern (al : ActionList) (supportsInsertion : Bool)
    (position amount : Nat) (pattern : List Nat) : Except InsertError ActionList :=
  if !supportsInsertion then .error .modeError
  else
    match buildTiled pattern amount with
    | none => .error .atOutOfRange
    | some data =>
        .ok (al.doAction (.bundled [.insertion position amount,
                                    .edit position data])).1

/-- For a non-empty pattern the data-building loop always succeeds, and the
built list has length `n` with entry `i` equal to `pattern[i % pattern.size()]`. -/
theorem buildTiled_nonempty (pattern : List Nat) (hpat : pattern ≠ []) (n : Nat) :
    ∃ d : List Nat, buildTiled pattern n = some d ∧ d.length = n ∧
      ∀ i, i < n → d.get? i = pattern.get? (i % pattern.length) := by
  induction n with
  | zero => exact ⟨[], rfl, rfl, fun i hi => absurd hi (Nat.not_lt_zero i)⟩
  | succ n ih =>
      obtain ⟨d, hd, hlen, hget⟩ := ih
      have hposlen : 0 < pattern.length := List.length_pos.mpr hpat
      have hmod : n % pattern.length < pattern.length := Nat.mod_lt _ hposlen
      have hb : pattern.get? (n % pattern.length) =
          some (pattern.get ⟨n % pattern.length, hmod⟩) := List.get?_eq_get hmod
      set b := pattern.get ⟨n % pattern.length, hmod⟩ with hbdef
      refine ⟨d ++ [b], ?_, ?_, ?_⟩
      · show buildTiled pattern (n + 1) = some (d ++ [b])
        unfold buildTiled
        rw [hd, hb]
      · simp [hlen]
      · intro i hi
        rcases Nat.lt_succ_iff_lt_or_eq.mp hi with hlt | heq
        · rw [List.get?_append (by omega), hget i hlt]
        · subst heq
          have hcat : (d ++ [b]).get? i = some b := by
            rw [← hlen]
            exact List.get?_concat_length d b
          rw [hcat, hb]

/-- Claim C10. For every non-empty pattern, `insert(position, n, pattern)`
pushes a Bundled action of an `Insertion{position, n}` followed by an `Edit`
whose data `d` has length `n` with `d[i] = pattern[i % pattern.size()]` for
every `i < n`; and with an empty pattern and `n > 0` the unguarded modulo
index makes the operation fail, so pattern non-emptiness is a necessary
precondition for totality. -/
theorem C10_insert_pattern (al : ActionList) (position amount : Nat)
    (pattern : List Nat) :
    (pattern ≠ [] →
      ∃ d : List Nat,
        Helix.insertPattern al true position amount pattern =
          .ok (al.doAction (.bundled [.insertion position amount,
                                      .edit position d])).1 ∧
        d.length = amount ∧
        ∀ i, i < amount → d.get? i = pattern.get? (i % pattern.length)) ∧
    (pattern = [] → 0 < amount →
      Helix.insertPattern al true position amount pattern =
        .error .atOutOfRange) := by
  constructor
  · intro hpat
    obtain ⟨d, hd, hlen, hget⟩ := buildTiled_nonempty pattern hpat amount
    refine ⟨d, ?_, hlen, hget⟩
    show (match buildTiled pattern amount with
      | none => Except.error InsertError.atOutOfRange
      | some data =>
          Except.ok (al.doAction (.bundled [.insertion position amount,
                                            .edit position data])).1) = _
    rw [hd]
  · intro hpat hamount
    subst hpat
    obtain ⟨m, hm⟩ := Nat.exists_eq_succ_of_ne_zero (Nat.pos_iff_ne_zero.mp hamount)
    subst hm
    show (match buildTiled [] (m + 1) with
      | none => Except.error InsertError.atOutOfRange
      | some data =>
          Except.ok (al.doAction (.bundled [.insertion position (m + 1),
                                            .edit position data])).1) = _
    have hnone : buildTiled [] (m + 1) = none := by
      unfold buildTiled
      cases buildTiled [] m with
      | none => rfl
      | some d => rfl
    rw [hnone]

/-- Witness for claim C10: on the empty log, `insert(5, 3, [7, 9])` pushes the
Bundled action with tiled data of length 3, and `insert(5, 2, [])` fails. -/
theorem C10_insert_pattern_witness :
    (∃ d : List Nat,
        Helix.insertPattern ⟨[], 0⟩ true 5 3 [7, 9] =
          .ok ((ActionList.mk [] 0).doAction
            (.bundled [.insertion 5 3, .edit 5 d])).1 ∧
        d.length = 3 ∧
        ∀ i, i < 3 → d.get? i = [7, 9].get? (i % 2)) ∧
    Helix.insertPattern ⟨[], 0⟩ true 5 2 [] = .error .atOutOfRange :=
  ⟨(C10_insert_pattern ⟨[], 0⟩ 5 3 [7, 9]).1 (by decide),
   (C10_insert_pattern ⟨[], 0⟩ 5 2 []).2 rfl (by decide)⟩

/-- A raw file for the in-place shift primitives: contents as a total function
from positions to bytes, plus an explicit size. -/
structure FHFile where
  data : Nat → Nat
  size : Nat

/-- A positioned write of `len` bytes: byte `g j` lands at position `dst + j`
for every `j < len`; every other position keeps its previous byte. -/
def writeRange (f : Nat → Nat) (dst : Nat) (g : Nat → Nat) (len : Nat) :
    Nat → Nat :=
  fun x => if dst ≤ x ∧ x < dst + len then g (x - dst) else f x

/-- One loop iteration of `FileHelper::File::deletion`: with
`slice_start = shift_start + i*chunk` and
`slice_end = min(slice_start + chunk, shift_end)`, read
`slice_amount = slice_end - slice_start` bytes at `slice_start` from the
current contents and write them back at `slice_start - amount`. -/
def deletionStep (shiftStart shiftEnd amount chunk : Nat) (f : Nat → Nat)
    (i : Nat) : Nat → Nat :=
  writeRange f (shiftStart + i * chunk - amount)
    (fun j => f (shiftStart + i * chunk + j))
    (min (shiftStart + i * chunk + chunk) shiftEnd - (shiftStart + i * chunk))

/-- `FileHelper::File::deletion(pos, amount, chunk)`: shift the bytes of
`[pos + amount, size)` down by `amount` positions, in forward slices of `chunk`
bytes (the final slice may be shorter); the file size is not changed here —
calling `resize` is the caller's duty. -/
def FHFile.deletion (file : FHFile) (pos amount chunk : Nat) : FHFile :=
  let shiftStart := pos + amount
  let shiftEnd := file.size
  let shiftAmount := shiftEnd - shiftStart
  let shiftIterations :=
    shiftAmount / chunk + (if shiftAmount % chunk = 0 then 0 else 1)
  { file with
    data := (List.range shiftIterations).foldl
      (deletionStep shiftStart shiftEnd amount chunk) file.data }

/-- `FileHelper::File::resize(amount)`: truncate or grow the file to the given
size; the surviving contents are unchanged. -/
def FHFile.resize (file : FHFile) (amount : Nat) : FHFile :=
  { file with size := amount }

/-- Invariant of the deletion-shift loop: after the first `i` slices, positions
below `pos` and positions at or beyond `pos + min (i*chunk) D` (where `D` is
the total number of bytes to shift) still hold their original contents, while
every position of `[pos, pos + min (i*chunk) D)` already holds the original
byte from `amount` positions further right. -/
theorem deletion_fold_spec (f0 : Nat → Nat) (pos amount chunk S : Nat)
    (i : Nat) : ∀ x : Nat,
    ((x < pos ∨ pos + min (i * chunk) (S - (pos + amount)) ≤ x) →
      (List.range i).foldl (deletionStep (pos + amount) S amount chunk) f0 x
        = f0 x) ∧
    (pos ≤ x → x < pos + min (i * chunk) (S - (pos + amount)) →
      (List.range i).foldl (deletionStep (pos + amount) S amount chunk) f0 x
        = f0 (x + amount)) := by
  induction i with
  | zero =>
      intro x
      refine ⟨fun _ => by simp, fun h1 h2 => ?_⟩
      simp only [Nat.zero_mul, Nat.zero_min] at h2
      omega
  | succ i ih =>
      intro x
      have hstep : (List.range (i + 1)).foldl
          (deletionStep (pos + amount) S amount chunk) f0
          = deletionStep (pos + amount) S amount chunk
            ((List.range i).foldl (deletionStep (pos + amount) S amount chunk)
              f0) i := by
        rw [List.range_succ, List.foldl_append, List.foldl_cons, List.foldl_nil]
      constructor
      · intro hx
        simp only [Nat.succ_mul] at hx
        rw [hstep]
        simp only [deletionStep, writeRange]
        split
        · rename_i hcond
          exact absurd hcond (by omega)
        · exact (ih x).1 (by omega)
      · intro hxl hxr
        simp only [Nat.succ_mul] at hxr
        rw [hstep]
        simp only [deletionStep, writeRange]
        by_cases hcase : x < pos + min (i * chunk) (S - (pos + amount))
        · split
          · rename_i hcond
            exact absurd hcond (by omega)
          · exact (ih x).2 hxl hcase
        · split
          · rename_i hcond
            have hidx : pos + amount + i * chunk +
                (x - (pos + amount + i * chunk - amount)) = x + amount := by
              omega
            rw [hidx]
            exact (ih (x + amount)).1 (Or.inr (by omega))
          · rename_i hcond
            exact absurd (by omega) hcond

/-- Claim C6. For a file of size `old_size`, any `pos` and `n` with
`pos + n ≤ old_size`, and any chunk size > 0, the in-place shift-deletion
`deletion(pos, n, chunk)` followed by `resize(old_size - n)` leaves the bytes
of `[0, pos)` unchanged and makes the bytes of `[pos, old_size - n)` equal to
the original bytes of `[pos + n, old_size)`. -/
theorem C6_deletion_resize (f0 : Nat → Nat) (S pos n chunk : Nat)
    (hchunk : 0 < chunk) (hn : pos + n ≤ S) :
    ((FHFile.deletion ⟨f0, S⟩ pos n chunk).resize (S - n)).size = S - n ∧
    (∀ x, x < pos →
      ((FHFile.deletion ⟨f0, S⟩ pos n chunk).resize (S - n)).data x = f0 x) ∧
    (∀ x, pos ≤ x → x < S - n →
      ((FHFile.deletion ⟨f0, S⟩ pos n chunk).resize (S - n)).data x
        = f0 (x + n)) := by
  have hdata : ((FHFile.deletion ⟨f0, S⟩ pos n chunk).resize (S - n)).data
      = (List.range ((S - (pos + n)) / chunk +
          (if (S - (pos + n)) % chunk = 0 then 0 else 1))).foldl
        (deletionStep (pos + n) S n chunk) f0 := rfl
  have hdm : chunk * ((S - (pos + n)) / chunk) + (S - (pos + n)) % chunk
      = S - (pos + n) := Nat.div_add_mod _ chunk
  have hmodlt : (S - (pos + n)) % chunk < chunk := Nat.mod_lt _ hchunk
  have hiter : S - (pos + n) ≤
      ((S - (pos + n)) / chunk +
        (if (S - (pos + n)) % chunk = 0 then 0 else 1)) * chunk := by
    by_cases h : (S - (pos + n)) % chunk = 0
    · rw [if_pos h, Nat.add_zero, Nat.mul_comm]
      omega
    · rw [if_neg h, Nat.add_mul, Nat.one_mul, Nat.mul_comm]
      omega
  have hmin : min
      (((S - (pos + n)) / chunk +
        (if (S - (pos + n)) % chunk = 0 then 0 else 1)) * chunk)
      (S - (pos + n)) = S - (pos + n) := Nat.min_eq_right hiter
  refine ⟨rfl, ?_, ?_⟩
  · intro x hx
    rw [hdata]
    exact (deletion_fold_spec f0 pos n chunk S _ x).1 (Or.inl hx)
  · intro x hxl hxr
    rw [hdata]
    refine (deletion_fold_spec f0 pos n chunk S _ x).2 hxl ?_
    rw [hmin]
    omega

/-- Witness for claim C6 at a concrete instance: the identity-contents file of
size 10 with `pos = 3`, `n = 4`, `chunk = 4`. -/
theorem C6_deletion_resize_witness :
    0 < 4 ∧ 3 + 4 ≤ 10 ∧
    ((FHFile.deletion ⟨fun y => y, 10⟩ 3 4 4).resize (10 - 4)).size = 10 - 4 ∧
    ((FHFile.deletion ⟨fun y => y, 10⟩ 3 4 4).resize (10 - 4)).data 2 = 2 ∧
    ((FHFile.deletion ⟨fun y => y, 10⟩ 3 4 4).resize (10 - 4)).data 4 = 8 :=
  have h := C6_deletion_resize (fun y => y) 10 3 4 4 (by decide) (by decide)
  ⟨by decide, by decide, h.1, h.2.1 2 (by decide), h.2.2 4 (by decide) (by decide)⟩

end LibHelix
